import Mathlib

/-!
Shallow embedding of the real-time chat hub in `src/main.go`.

The Go program consists of:
* a `Message` struct serialized with `encoding/json` (all fields `omitempty`),
* a `ClientManager` (the Hub) owning `clients : map[*Client]bool` and three
  channels `register`, `unregister`, `broadcast`, run by `start()`,
* per-client `read` and `write` pumps,
* an HTTP handler `wsPage` that upgrades the connection, builds a `Client`
  with `send: make(chan []byte)` (an unbuffered channel) and registers it.

Client pointer identity is modelled by a `Nat` (`cid`).  A client's `send`
channel is modelled by a `ChanState` recording the messages successfully
handed to it (`inbox`), whether it has been closed, and how many times
`close` was executed on it.  A blocking send (`conn.send <- message` in
`manager.send`) appends to `inbox`; the non-blocking send in the broadcast
case of `start()` succeeds or fails according to an oracle list `full`
carried by the broadcast event, which abstracts whether the unbuffered
channel would block at that moment.
-/

namespace Chat

/-- The Go `Message` struct: `Sender`, `Recipient`, `Content`, each tagged
`json:"...,omitempty"`. -/
structure Message where
  sender : String
  recipient : String
  content : String
  deriving DecidableEq

/-- Model of `encoding/json` string escaping for the characters that need
escaping in the strings this program produces (quote and backslash). -/
def jsonEscapeChar (c : Char) : String :=
  if c = '\\' then "\\\\" else if c = '"' then "\\\"" else String.singleton c

/-- A JSON string literal: quoted, escaped. -/
def jsonQuote (s : String) : String :=
  "\"" ++ String.join (s.toList.map jsonEscapeChar) ++ "\""

/-- The key/value pairs emitted for a `Message`, in struct-field order,
with empty fields omitted (`omitempty`). -/
def messageFields (m : Message) : List (String × String) :=
  (if m.sender = "" then [] else [("sender", m.sender)]) ++
  (if m.recipient = "" then [] else [("recipient", m.recipient)]) ++
  (if m.content = "" then [] else [("content", m.content)])

/-- Render one `"key":"value"` pair. -/
def renderField (kv : String × String) : String :=
  jsonQuote kv.1 ++ ":" ++ jsonQuote kv.2

/-- The serialized wire form of a `Message`, as produced by
`json.Marshal(&Message{...})`. -/
def jsonMarshalMessage (m : Message) : String :=
  "\x7b" ++ String.intercalate "," ((messageFields m).map renderField) ++ "\x7d"

/-- `json.Marshal` returns a byte slice and an error.  For this struct of
three plain strings marshalling is total, so the error component is always
`none`; the Go code nevertheless binds it (to `_`) and discards it. -/
def jsonMarshal (m : Message) : String × Option String :=
  (jsonMarshalMessage m, none)

/-- Content of the announcement built in the `register` case of `start()`. -/
def joinedContent : String := "/A new socket has connected."

/-- Content of the announcement built in the `unregister` case of `start()`. -/
def leftContent : String := "/A socket has disconnected."

/-- State of one client's `send` channel as observed by the Hub:
`inbox` is the sequence of messages successfully handed to the channel,
`closed` whether `close(conn.send)` has run, `closeCount` how many times. -/
structure ChanState where
  inbox : List String
  closed : Bool
  closeCount : Nat
  deriving DecidableEq

/-- A freshly made `make(chan []byte)` channel: nothing delivered, open. -/
def ChanState.start : ChanState := ⟨[], false, 0⟩

/-- State of the Hub: `registry` models `manager.clients` (the set of
registered client pointers), `chans` records the channel state of every
client the Hub has ever seen (entries persist after removal so that closes
of already-removed clients remain observable). -/
structure HubState where
  registry : List Nat
  chans : List (Nat × ChanState)
  deriving DecidableEq

/-- The keys of the channel table. -/
def chanKeys (chans : List (Nat × ChanState)) : List Nat :=
  chans.map (fun p => p.1)

/-- Look up a client's channel state (fresh channel if unknown). -/
def getChanIn : List (Nat × ChanState) → Nat → ChanState
  | [], _ => ChanState.start
  | p :: rest, c => if p.1 = c then p.2 else getChanIn rest c

/-- Look up a client's channel state in a hub state. -/
def getChan (s : HubState) (c : Nat) : ChanState :=
  getChanIn s.chans c

/-- Apply `f` to client `c`'s channel entry. -/
def updateChan (chans : List (Nat × ChanState)) (c : Nat) (f : ChanState → ChanState) :
    List (Nat × ChanState) :=
  chans.map (fun p => if p.1 = c then (p.1, f p.2) else p)

/-- Effect of a successful send of `msg` on a channel. -/
def enqOp (msg : String) (ch : ChanState) : ChanState :=
  { ch with inbox := ch.inbox ++ [msg] }

/-- Effect of `close(conn.send)` on a channel. -/
def closeOp (ch : ChanState) : ChanState :=
  { ch with closed := true, closeCount := ch.closeCount + 1 }

/-- `manager.send(message, ignore)`: iterate over the registered clients and
do a blocking send of `message` to every one except `ignore`
(src/main.go lines 39-45). -/
def sendAll (chans : List (Nat × ChanState)) (reg : List Nat) (ignore : Nat)
    (msg : String) : List (Nat × ChanState) :=
  reg.foldl (fun ch c => if c = ignore then ch else updateChan ch c (enqOp msg)) chans

/-- The `jsonMessage, _ := json.Marshal(...); manager.send(jsonMessage, conn)`
sequence shared by the register and unregister cases of `start()`: the error
component of the marshal result is bound to `_` and never examined; the byte
component is sent regardless. -/
def announce (res : String × Option String) (chans : List (Nat × ChanState))
    (reg : List Nat) (ignore : Nat) : List (Nat × ChanState) :=
  sendAll chans reg ignore res.1

/-- One event arriving on one of the three Hub channels.  A `broadcast`
event carries the oracle `full`: the clients whose non-blocking
`conn.send <- message` would block (hit the `default` branch). -/
inductive HEvent where
  | register (c : Nat)
  | unregister (c : Nat)
  | broadcast (msg : String) (full : List Nat)
  deriving DecidableEq

/-- One iteration of the `for conn := range manager.clients` loop in the
broadcast case of `start()` (src/main.go lines 73-80): try the non-blocking
send; on failure close the channel and delete the client. -/
def dropOrDeliver (msg : String) (full : List Nat) (s : HubState) (c : Nat) : HubState :=
  if c ∈ full then
    { registry := s.registry.erase c, chans := updateChan s.chans c closeOp }
  else
    { s with chans := updateChan s.chans c (enqOp msg) }

/-- One iteration of the `select` in `ClientManager.start`
(src/main.go lines 58-83). -/
def hubStep (s : HubState) : HEvent → HubState
  | .register c =>
      -- manager.clients[conn] = true (map insert; new channel entry if unseen)
      let reg1 := if c ∈ s.registry then s.registry else s.registry ++ [c]
      let chans1 := if c ∈ chanKeys s.chans then s.chans
                    else s.chans ++ [(c, ChanState.start)]
      { registry := reg1,
        chans := announce (jsonMarshal ⟨"", "", joinedContent⟩) chans1 reg1 c }
  | .unregister c =>
      if c ∈ s.registry then
        let chans1 := updateChan s.chans c closeOp
        let reg1 := s.registry.erase c
        { registry := reg1,
          chans := announce (jsonMarshal ⟨"", "", leftContent⟩) chans1 reg1 c }
      else s
  | .broadcast msg full =>
      s.registry.foldl (dropOrDeliver msg full) s

/-- The Hub loop applied to a whole queue of events. -/
def hubRun (s : HubState) (t : List HEvent) : HubState :=
  t.foldl hubStep s

/-- The Hub's state at process start: `clients: make(map[*Client]bool)`. -/
def hubStart : HubState := ⟨[], []⟩

/-! ## Client construction and the HTTP handler (`wsPage`) -/

/-- A Go channel value: for `make(chan []byte)` only the buffer capacity is
relevant here (zero when no capacity argument is given). -/
structure GoChan where
  capacity : Nat
  deriving DecidableEq

/-- The `Client` struct: unique id, and the outbound `send` channel.
The socket is external and carries no state the claims need. -/
structure Client where
  id : String
  send : GoChan
  deriving DecidableEq

/-- The client construction in `wsPage` (src/main.go line 135):
`&Client{id: uuid.NewV4().String(), socket: conn, send: make(chan []byte)}`.
`make(chan []byte)` has no capacity argument, so the channel is unbuffered. -/
def newClient (fresh : String) : Client :=
  { id := fresh, send := { capacity := 0 } }

/-- Observable actions of the `wsPage` handler. -/
inductive WsAct where
  | respondNotFound
  | registerClient (c : Client)
  | startReadPump (c : Client)
  | startWritePump (c : Client)
  deriving DecidableEq

/-- The `wsPage` handler (src/main.go lines 129-141), as a function of the
upgrade outcome (`none` models `error != nil`) and the generated uuid. -/
def wsPage (upgraded : Option Unit) (fresh : String) : List WsAct :=
  match upgraded with
  | none => [.respondNotFound]
  | some _ =>
      let client := newClient fresh
      [.registerClient client, .startReadPump client, .startWritePump client]

/-! ## The read pump (`Client.read`) -/

/-- Result of one `c.socket.ReadMessage()` call: a payload, or an error. -/
inductive ReadResult where
  | ok (payload : String)
  | fail
  deriving DecidableEq

/-- Observable actions of the read pump, in program order. -/
inductive PumpAct where
  | broadcast (wire : String)
  | unregisterSelf
  | closeSocket
  deriving DecidableEq

/-- The read pump (src/main.go lines 88-104) run against a sequence of
transport read results.  On a payload: marshal an envelope with
`Sender: c.id, Content: string(message)` (error discarded) and send it on
`manager.broadcast`.  On an error: send the client on `manager.unregister`,
close the socket, `break`; then the deferred function runs the same
unregister-and-close sequence a second time.  An exhausted result list
models a pump still blocked in `ReadMessage` (the deferred cleanup has not
run). -/
def clientRead (c : Client) : List ReadResult → List PumpAct
  | [] => []
  | .ok payload :: rest =>
      .broadcast (jsonMarshal ⟨c.id, "", payload⟩).1 :: clientRead c rest
  | .fail :: _ =>
      [.unregisterSelf, .closeSocket, .unregisterSelf, .closeSocket]

/-! ## The registry invariant -/

/-- Invariant of the Hub state, maintained by the loop when every register
event carries a client the Hub has never seen (which is how `wsPage` uses
the register channel: each `Client` is a fresh allocation):
the registry has no duplicates, the channel table has no duplicate keys,
every registered client has a channel entry, a known client is registered
exactly when its channel is still open, and every channel has been closed
at most once — exactly once when (and only when) it is marked closed. -/
def Inv (s : HubState) : Prop :=
  s.registry.Nodup ∧
  (chanKeys s.chans).Nodup ∧
  (∀ c ∈ s.registry, c ∈ chanKeys s.chans) ∧
  (∀ c ∈ chanKeys s.chans, ((getChan s c).closed = false ↔ c ∈ s.registry)) ∧
  (∀ c ∈ chanKeys s.chans, (getChan s c).closeCount ≤ 1) ∧
  (∀ c ∈ chanKeys s.chans, ((getChan s c).closed = true ↔ (getChan s c).closeCount = 1))

instance (s : HubState) : Decidable (Inv s) := by
  unfold Inv
  infer_instance

/-! ## Traces of Hub events -/

/-- `freshTrace known t` holds when every register event in `t` carries a
client distinct from all in `known` and from all registered earlier in `t`.
This is how the program drives the register channel: `wsPage` sends each
freshly allocated `Client` exactly once. -/
def freshTrace (known : List Nat) : List HEvent → Bool
  | [] => true
  | .register c :: rest => (!(decide (c ∈ known))) && freshTrace (c :: known) rest
  | .unregister _ :: rest => freshTrace known rest
  | .broadcast _ _ :: rest => freshTrace known rest

/-- Number of clients an event admits into the registry (0 or 1). -/
def admitStep (s : HubState) : HEvent → Nat
  | .register c => if c ∈ s.registry then 0 else 1
  | _ => 0

/-- Number of clients an event removes from the registry. -/
def removalStep (s : HubState) : HEvent → Nat
  | .register _ => 0
  | .unregister c => if c ∈ s.registry then 1 else 0
  | .broadcast _ full => (s.registry.filter (fun x => decide (x ∈ full))).length

/-- Total admissions along a trace. -/
def admits (s : HubState) : List HEvent → Nat
  | [] => 0
  | e :: rest => admitStep s e + admits (hubStep s e) rest

/-- Total removals along a trace. -/
def removals (s : HubState) : List HEvent → Nat
  | [] => 0
  | e :: rest => removalStep s e + removals (hubStep s e) rest

/-! ## Basic lemmas about channel-table operations -/

@[simp]
theorem enqOp_inbox (msg : String) (ch : ChanState) :
    (enqOp msg ch).inbox = ch.inbox ++ [msg] := rfl

@[simp]
theorem enqOp_closed (msg : String) (ch : ChanState) :
    (enqOp msg ch).closed = ch.closed := rfl

@[simp]
theorem enqOp_closeCount (msg : String) (ch : ChanState) :
    (enqOp msg ch).closeCount = ch.closeCount := rfl

@[simp]
theorem closeOp_inbox (ch : ChanState) : (closeOp ch).inbox = ch.inbox := rfl

@[simp]
theorem closeOp_closed (ch : ChanState) : (closeOp ch).closed = true := rfl

@[simp]
theorem closeOp_closeCount (ch : ChanState) :
    (closeOp ch).closeCount = ch.closeCount + 1 := rfl

theorem chanKeys_nil : chanKeys [] = [] := rfl

theorem chanKeys_cons (p : Nat × ChanState) (rest : List (Nat × ChanState)) :
    chanKeys (p :: rest) = p.1 :: chanKeys rest := rfl

theorem chanKeys_append (l₁ l₂ : List (Nat × ChanState)) :
    chanKeys (l₁ ++ l₂) = chanKeys l₁ ++ chanKeys l₂ := by
  simp [chanKeys]

theorem chanKeys_updateChan (chans : List (Nat × ChanState)) (c : Nat)
    (f : ChanState → ChanState) : chanKeys (updateChan chans c f) = chanKeys chans := by
  induction chans with
  | nil => rfl
  | cons p rest ih =>
      by_cases hp : p.1 = c <;>
        simp [updateChan, chanKeys_cons, hp] <;>
        simpa [updateChan, chanKeys] using ih

theorem getChanIn_not_mem (chans : List (Nat × ChanState)) (c : Nat)
    (h : c ∉ chanKeys chans) : getChanIn chans c = ChanState.start := by
  induction chans with
  | nil => rfl
  | cons p rest ih =>
      simp only [chanKeys_cons, List.mem_cons] at h
      push_neg at h
      simp [getChanIn, Ne.symm h.1, ih h.2]

theorem updateChan_cons (p : Nat × ChanState) (rest : List (Nat × ChanState))
    (c : Nat) (f : ChanState → ChanState) :
    updateChan (p :: rest) c f =
      (if p.1 = c then (p.1, f p.2) else p) :: updateChan rest c f := rfl

theorem getChanIn_updateChan_ne (chans : List (Nat × ChanState)) (c c' : Nat)
    (f : ChanState → ChanState) (h : c' ≠ c) :
    getChanIn (updateChan chans c f) c' = getChanIn chans c' := by
  induction chans with
  | nil => rfl
  | cons p rest ih =>
      rw [updateChan_cons]
      by_cases hp : p.1 = c
      · have hp' : p.1 ≠ c' := by rw [hp]; exact fun hc => h hc.symm
        simp only [if_pos hp, getChanIn, if_neg hp', ih]
      · by_cases hc' : p.1 = c'
        · simp [getChanIn, hp, hc', h]
        · simp [getChanIn, hp, hc', ih]

theorem getChanIn_updateChan_self (chans : List (Nat × ChanState)) (c : Nat)
    (f : ChanState → ChanState) (h : c ∈ chanKeys chans) :
    getChanIn (updateChan chans c f) c = f (getChanIn chans c) := by
  induction chans with
  | nil => cases h
  | cons p rest ih =>
      rw [updateChan_cons]
      by_cases hp : p.1 = c
      · simp [getChanIn, hp]
      · simp only [chanKeys_cons, List.mem_cons] at h
        rcases h with h | h
        · exact absurd h.symm hp
        · simp [getChanIn, hp, ih h]

theorem updateChan_not_mem (chans : List (Nat × ChanState)) (c : Nat)
    (f : ChanState → ChanState) (h : c ∉ chanKeys chans) :
    updateChan chans c f = chans := by
  induction chans with
  | nil => rfl
  | cons p rest ih =>
      simp only [chanKeys_cons, List.mem_cons] at h
      push_neg at h
      rw [updateChan_cons, if_neg (fun he => h.1 he.symm), ih h.2]

theorem getChanIn_append_left (chans rest : List (Nat × ChanState)) (c : Nat)
    (h : c ∈ chanKeys chans) :
    getChanIn (chans ++ rest) c = getChanIn chans c := by
  induction chans with
  | nil => cases h
  | cons p l ih =>
      by_cases hp : p.1 = c
      · simp [getChanIn, hp]
      · simp only [chanKeys_cons, List.mem_cons] at h
        rcases h with h | h
        · exact absurd h.symm hp
        · simp [getChanIn, hp, ih h]

theorem getChanIn_append_fresh (chans : List (Nat × ChanState)) (c : Nat)
    (ch : ChanState) (h : c ∉ chanKeys chans) :
    getChanIn (chans ++ [(c, ch)]) c = ch := by
  induction chans with
  | nil => simp [getChanIn]
  | cons p l ih =>
      simp only [chanKeys_cons, List.mem_cons] at h
      push_neg at h
      simp [getChanIn, Ne.symm h.1, ih h.2]

/-! ## Lemmas about `manager.send` (`sendAll`) -/

theorem sendAll_nil (chans : List (Nat × ChanState)) (ignore : Nat) (msg : String) :
    sendAll chans [] ignore msg = chans := rfl

theorem sendAll_cons (chans : List (Nat × ChanState)) (a : Nat) (reg : List Nat)
    (ignore : Nat) (msg : String) :
    sendAll chans (a :: reg) ignore msg =
      sendAll (if a = ignore then chans else updateChan chans a (enqOp msg)) reg ignore msg := rfl

theorem chanKeys_sendAll (reg : List Nat) (chans : List (Nat × ChanState))
    (ignore : Nat) (msg : String) :
    chanKeys (sendAll chans reg ignore msg) = chanKeys chans := by
  induction reg generalizing chans with
  | nil => rfl
  | cons a l ih =>
      rw [sendAll_cons]
      by_cases ha : a = ignore
      · simp [ha, ih]
      · simp [ha, ih, chanKeys_updateChan]

theorem getChanIn_sendAll_not_mem (reg : List Nat) (chans : List (Nat × ChanState))
    (ignore : Nat) (msg : String) (c : Nat) (h : c ∉ reg) :
    getChanIn (sendAll chans reg ignore msg) c = getChanIn chans c := by
  induction reg generalizing chans with
  | nil => rfl
  | cons a l ih =>
      simp only [List.mem_cons] at h
      push_neg at h
      rw [sendAll_cons]
      by_cases ha : a = ignore
      · simp only [if_pos ha]
        exact ih _ h.2
      · simp only [if_neg ha]
        rw [ih _ h.2, getChanIn_updateChan_ne _ _ _ _ h.1]

theorem getChanIn_sendAll_ignore (reg : List Nat) (chans : List (Nat × ChanState))
    (ignore : Nat) (msg : String) :
    getChanIn (sendAll chans reg ignore msg) ignore = getChanIn chans ignore := by
  induction reg generalizing chans with
  | nil => rfl
  | cons a l ih =>
      rw [sendAll_cons]
      by_cases ha : a = ignore
      · simp only [if_pos ha]
        exact ih _
      · simp only [if_neg ha]
        rw [ih _, getChanIn_updateChan_ne _ _ _ _ (fun he => ha he.symm)]

theorem getChanIn_sendAll_mem (reg : List Nat) (chans : List (Nat × ChanState))
    (ignore : Nat) (msg : String) (c : Nat) (hnd : reg.Nodup) (hc : c ∈ reg)
    (hne : c ≠ ignore) (hk : c ∈ chanKeys chans) :
    getChanIn (sendAll chans reg ignore msg) c = enqOp msg (getChanIn chans c) := by
  induction reg generalizing chans with
  | nil => cases hc
  | cons a l ih =>
      rw [sendAll_cons]
      rcases List.mem_cons.mp hc with rfl | hcl
      · rw [if_neg hne]
        rw [getChanIn_sendAll_not_mem _ _ _ _ _ (List.nodup_cons.mp hnd).1]
        exact getChanIn_updateChan_self _ _ _ hk
      · by_cases ha : a = ignore
        · rw [if_pos ha]
          exact ih _ (List.nodup_cons.mp hnd).2 hcl hk
        · rw [if_neg ha]
          have hca : c ≠ a := by
            intro he
            exact (List.nodup_cons.mp hnd).1 (he ▸ hcl)
          rw [ih _ (List.nodup_cons.mp hnd).2 hcl
                (by rw [chanKeys_updateChan]; exact hk),
              getChanIn_updateChan_ne _ _ _ _ hca]

/-- `manager.send` never closes a channel: the closed flag and close count of
every channel are unchanged. -/
theorem sendAll_closed_closeCount (reg : List Nat) (chans : List (Nat × ChanState))
    (ignore : Nat) (msg : String) (c : Nat) :
    (getChanIn (sendAll chans reg ignore msg) c).closed = (getChanIn chans c).closed ∧
    (getChanIn (sendAll chans reg ignore msg) c).closeCount =
      (getChanIn chans c).closeCount := by
  induction reg generalizing chans with
  | nil => exact ⟨rfl, rfl⟩
  | cons a l ih =>
      rw [sendAll_cons]
      by_cases ha : a = ignore
      · rw [if_pos ha]; exact ih _
      · rw [if_neg ha]
        rcases ih (updateChan chans a (enqOp msg)) with ⟨h1, h2⟩
        rw [h1, h2]
        by_cases hca : c = a
        · subst hca
          by_cases hk : c ∈ chanKeys chans
          · rw [getChanIn_updateChan_self _ _ _ hk]
            exact ⟨rfl, rfl⟩
          · rw [updateChan_not_mem _ _ _ hk]
            exact ⟨rfl, rfl⟩
        · rw [getChanIn_updateChan_ne _ _ _ _ hca]
          exact ⟨rfl, rfl⟩

/-! ## Lemmas about the broadcast fan-out loop -/

theorem dropOrDeliver_full (msg : String) (full : List Nat) (s : HubState) (c : Nat)
    (h : c ∈ full) :
    dropOrDeliver msg full s c =
      { registry := s.registry.erase c, chans := updateChan s.chans c closeOp } := by
  simp [dropOrDeliver, h]

theorem dropOrDeliver_notFull (msg : String) (full : List Nat) (s : HubState) (c : Nat)
    (h : c ∉ full) :
    dropOrDeliver msg full s c = { s with chans := updateChan s.chans c (enqOp msg) } := by
  simp [dropOrDeliver, h]

theorem chanKeys_dropOrDeliver (msg : String) (full : List Nat) (s : HubState) (a : Nat) :
    chanKeys (dropOrDeliver msg full s a).chans = chanKeys s.chans := by
  by_cases ha : a ∈ full
  · rw [dropOrDeliver_full _ _ _ _ ha]; exact chanKeys_updateChan _ _ _
  · rw [dropOrDeliver_notFull _ _ _ _ ha]; exact chanKeys_updateChan _ _ _

theorem getChan_dropOrDeliver_ne (msg : String) (full : List Nat) (s : HubState)
    (a c : Nat) (hca : c ≠ a) :
    getChan (dropOrDeliver msg full s a) c = getChan s c := by
  by_cases ha : a ∈ full
  · rw [dropOrDeliver_full _ _ _ _ ha]; exact getChanIn_updateChan_ne _ _ _ _ hca
  · rw [dropOrDeliver_notFull _ _ _ _ ha]; exact getChanIn_updateChan_ne _ _ _ _ hca

theorem mem_registry_dropOrDeliver_ne (msg : String) (full : List Nat) (s : HubState)
    (a c : Nat) (hca : c ≠ a) :
    (c ∈ (dropOrDeliver msg full s a).registry ↔ c ∈ s.registry) := by
  by_cases ha : a ∈ full
  · rw [dropOrDeliver_full _ _ _ _ ha]; exact List.mem_erase_of_ne hca
  · rw [dropOrDeliver_notFull _ _ _ _ ha]

theorem registry_nodup_dropOrDeliver (msg : String) (full : List Nat) (s : HubState)
    (a : Nat) (h : s.registry.Nodup) :
    (dropOrDeliver msg full s a).registry.Nodup := by
  by_cases ha : a ∈ full
  · rw [dropOrDeliver_full _ _ _ _ ha]; exact h.erase a
  · rw [dropOrDeliver_notFull _ _ _ _ ha]; exact h

theorem registry_sub_dropOrDeliver (msg : String) (full : List Nat) (s : HubState)
    (a c : Nat) (h : c ∈ (dropOrDeliver msg full s a).registry) : c ∈ s.registry := by
  by_cases ha : a ∈ full
  · rw [dropOrDeliver_full _ _ _ _ ha] at h; exact List.mem_of_mem_erase h
  · rw [dropOrDeliver_notFull _ _ _ _ ha] at h; exact h

theorem bcast_chanKeys (msg : String) (full : List Nat) (l : List Nat) (s : HubState) :
    chanKeys (l.foldl (dropOrDeliver msg full) s).chans = chanKeys s.chans := by
  induction l generalizing s with
  | nil => rfl
  | cons a tail ih =>
      rw [List.foldl_cons, ih, chanKeys_dropOrDeliver]

theorem bcast_registry_nodup (msg : String) (full : List Nat) (l : List Nat)
    (s : HubState) (h : s.registry.Nodup) :
    (l.foldl (dropOrDeliver msg full) s).registry.Nodup := by
  induction l generalizing s with
  | nil => exact h
  | cons a tail ih =>
      rw [List.foldl_cons]
      exact ih _ (registry_nodup_dropOrDeliver _ _ _ _ h)

theorem bcast_registry_sub (msg : String) (full : List Nat) (l : List Nat)
    (s : HubState) (c : Nat) (h : c ∈ (l.foldl (dropOrDeliver msg full) s).registry) :
    c ∈ s.registry := by
  induction l generalizing s with
  | nil => exact h
  | cons a tail ih =>
      rw [List.foldl_cons] at h
      exact registry_sub_dropOrDeliver _ _ _ _ _ (ih _ h)

theorem bcast_not_mem (msg : String) (full : List Nat) (l : List Nat) (s : HubState)
    (c : Nat) (h : c ∉ l) :
    getChan (l.foldl (dropOrDeliver msg full) s) c = getChan s c ∧
    (c ∈ (l.foldl (dropOrDeliver msg full) s).registry ↔ c ∈ s.registry) := by
  induction l generalizing s with
  | nil => exact ⟨rfl, Iff.rfl⟩
  | cons a tail ih =>
      simp only [List.mem_cons] at h
      push_neg at h
      rw [List.foldl_cons]
      rcases ih (dropOrDeliver msg full s a) h.2 with ⟨h1, h2⟩
      refine ⟨?_, ?_⟩
      · rw [h1]; exact getChan_dropOrDeliver_ne _ _ _ _ _ h.1
      · rw [h2]; exact mem_registry_dropOrDeliver_ne _ _ _ _ _ h.1

theorem bcast_mem_not_full (msg : String) (full : List Nat) (l : List Nat) (s : HubState)
    (c : Nat) (hnd : l.Nodup) (hc : c ∈ l) (hf : c ∉ full) (hk : c ∈ chanKeys s.chans) :
    getChan (l.foldl (dropOrDeliver msg full) s) c = enqOp msg (getChan s c) ∧
    (c ∈ (l.foldl (dropOrDeliver msg full) s).registry ↔ c ∈ s.registry) := by
  induction l generalizing s with
  | nil => cases hc
  | cons a tail ih =>
      rw [List.foldl_cons]
      rcases List.mem_cons.mp hc with rfl | hcl
      · rcases bcast_not_mem msg full tail (dropOrDeliver msg full s c) c
            (List.nodup_cons.mp hnd).1 with ⟨h1, h2⟩
        refine ⟨?_, ?_⟩
        · rw [h1, dropOrDeliver_notFull _ _ _ _ hf]
          exact getChanIn_updateChan_self _ _ _ hk
        · rw [h2, dropOrDeliver_notFull _ _ _ _ hf]
      · have hca : c ≠ a := fun he => (List.nodup_cons.mp hnd).1 (he ▸ hcl)
        rcases ih (dropOrDeliver msg full s a) (List.nodup_cons.mp hnd).2 hcl
            (by rw [chanKeys_dropOrDeliver]; exact hk) with ⟨h1, h2⟩
        refine ⟨?_, ?_⟩
        · rw [h1, getChan_dropOrDeliver_ne _ _ _ _ _ hca]
        · rw [h2]; exact mem_registry_dropOrDeliver_ne _ _ _ _ _ hca

theorem bcast_mem_full (msg : String) (full : List Nat) (l : List Nat) (s : HubState)
    (c : Nat) (hnd : l.Nodup) (hreg : s.registry.Nodup) (hc : c ∈ l) (hf : c ∈ full)
    (hk : c ∈ chanKeys s.chans) :
    getChan (l.foldl (dropOrDeliver msg full) s) c = closeOp (getChan s c) ∧
    c ∉ (l.foldl (dropOrDeliver msg full) s).registry := by
  induction l generalizing s with
  | nil => cases hc
  | cons a tail ih =>
      rw [List.foldl_cons]
      rcases List.mem_cons.mp hc with rfl | hcl
      · rcases bcast_not_mem msg full tail (dropOrDeliver msg full s c) c
            (List.nodup_cons.mp hnd).1 with ⟨h1, h2⟩
        refine ⟨?_, ?_⟩
        · rw [h1, dropOrDeliver_full _ _ _ _ hf]
          exact getChanIn_updateChan_self _ _ _ hk
        · rw [h2, dropOrDeliver_full _ _ _ _ hf]
          intro hmem
          exact (hreg.mem_erase_iff.mp hmem).1 rfl
      · have hca : c ≠ a := fun he => (List.nodup_cons.mp hnd).1 (he ▸ hcl)
        rcases ih (dropOrDeliver msg full s a) (List.nodup_cons.mp hnd).2
            (registry_nodup_dropOrDeliver _ _ _ _ hreg) hcl
            (by rw [chanKeys_dropOrDeliver]; exact hk) with ⟨h1, h2⟩
        refine ⟨?_, h2⟩
        rw [h1, getChan_dropOrDeliver_ne _ _ _ _ _ hca]

theorem bcast_length (msg : String) (full : List Nat) (l : List Nat) (s : HubState)
    (hnd : l.Nodup) (hreg : s.registry.Nodup) (hsub : ∀ x ∈ l, x ∈ s.registry) :
    (l.foldl (dropOrDeliver msg full) s).registry.length +
      (l.filter (fun x => decide (x ∈ full))).length = s.registry.length := by
  induction l generalizing s with
  | nil => simp
  | cons a tail ih =>
      rw [List.foldl_cons]
      have hmem : a ∈ s.registry := hsub a (List.mem_cons_self a tail)
      by_cases ha : a ∈ full
      · have hlen : (s.registry.erase a).length + 1 = s.registry.length :=
          List.length_erase_add_one hmem
        have hsub' : ∀ x ∈ tail, x ∈ (dropOrDeliver msg full s a).registry := by
          intro x hx
          have hxa : x ≠ a := fun he => (List.nodup_cons.mp hnd).1 (he ▸ hx)
          exact (mem_registry_dropOrDeliver_ne _ _ _ _ _ hxa).mpr
            (hsub x (List.mem_cons_of_mem a hx))
        have hrec := ih (dropOrDeliver msg full s a) (List.nodup_cons.mp hnd).2
          (registry_nodup_dropOrDeliver _ _ _ _ hreg) hsub'
        rw [dropOrDeliver_full _ _ _ _ ha] at hrec
        have hfil : (List.filter (fun x => decide (x ∈ full)) (a :: tail)).length =
            (List.filter (fun x => decide (x ∈ full)) tail).length + 1 := by
          simp [List.filter_cons, ha]
        rw [dropOrDeliver_full _ _ _ _ ha, hfil]
        dsimp only at hrec ⊢
        omega
      · have hsub' : ∀ x ∈ tail, x ∈ (dropOrDeliver msg full s a).registry := by
          intro x hx
          rw [dropOrDeliver_notFull _ _ _ _ ha]
          exact hsub x (List.mem_cons_of_mem a hx)
        have hrec := ih (dropOrDeliver msg full s a) (List.nodup_cons.mp hnd).2
          (registry_nodup_dropOrDeliver _ _ _ _ hreg) hsub'
        rw [dropOrDeliver_notFull _ _ _ _ ha] at hrec
        have hfil : (List.filter (fun x => decide (x ∈ full)) (a :: tail)).length =
            (List.filter (fun x => decide (x ∈ full)) tail).length := by
          simp [List.filter_cons, ha]
        rw [dropOrDeliver_notFull _ _ _ _ ha, hfil]
        dsimp only at hrec ⊢
        omega


theorem inv_hubStart : Inv hubStart := by decide

/-- A registered client's channel is open and has never been closed. -/
theorem inv_registered_open (s : HubState) (hInv : Inv s) (c : Nat)
    (hc : c ∈ s.registry) :
    (getChan s c).closed = false ∧ (getChan s c).closeCount = 0 := by
  obtain ⟨-, -, hsub, hopen, hle, hcnt⟩ := hInv
  have hk := hsub c hc
  have h1 : (getChan s c).closed = false := (hopen c hk).mpr hc
  refine ⟨h1, ?_⟩
  have h2 : (getChan s c).closeCount ≠ 1 := by
    intro he
    rw [(hcnt c hk).mpr he] at h1
    cases h1
  have := hle c hk
  omega

theorem getChanIn_append_single_ne (chans : List (Nat × ChanState)) (c : Nat)
    (ch : ChanState) (d : Nat) (hdc : d ≠ c) :
    getChanIn (chans ++ [(c, ch)]) d = getChanIn chans d := by
  induction chans with
  | nil =>
      show (if c = d then ch else ChanState.start) = ChanState.start
      rw [if_neg (fun he => hdc he.symm)]
  | cons p rest ih =>
      by_cases hp : p.1 = d
      · simp [getChanIn, hp]
      · simp [getChanIn, hp, ih]

theorem hubStep_register_def (s : HubState) (c : Nat) :
    hubStep s (.register c) =
      { registry := if c ∈ s.registry then s.registry else s.registry ++ [c],
        chans := sendAll
          (if c ∈ chanKeys s.chans then s.chans else s.chans ++ [(c, ChanState.start)])
          (if c ∈ s.registry then s.registry else s.registry ++ [c]) c
          (jsonMarshalMessage ⟨"", "", joinedContent⟩) } := rfl

theorem hubStep_unregister_def (s : HubState) (c : Nat) :
    hubStep s (.unregister c) =
      if c ∈ s.registry then
        { registry := s.registry.erase c,
          chans := sendAll (updateChan s.chans c closeOp) (s.registry.erase c) c
            (jsonMarshalMessage ⟨"", "", leftContent⟩) }
      else s := rfl

theorem hubStep_broadcast_def (s : HubState) (msg : String) (full : List Nat) :
    hubStep s (.broadcast msg full) = s.registry.foldl (dropOrDeliver msg full) s := rfl

theorem hubRun_cons (s : HubState) (e : HEvent) (t : List HEvent) :
    hubRun s (e :: t) = hubRun (hubStep s e) t := rfl

theorem chanKeys_hubStep_register_fresh (s : HubState) (c : Nat)
    (h : c ∉ chanKeys s.chans) :
    chanKeys (hubStep s (.register c)).chans = chanKeys s.chans ++ [c] := by
  rw [hubStep_register_def]
  simp only [if_neg h]
  rw [chanKeys_sendAll, chanKeys_append]
  rfl

theorem chanKeys_hubStep_unregister (s : HubState) (c : Nat) :
    chanKeys (hubStep s (.unregister c)).chans = chanKeys s.chans := by
  rw [hubStep_unregister_def]
  by_cases hc : c ∈ s.registry
  · rw [if_pos hc]
    show chanKeys (sendAll (updateChan s.chans c closeOp) (s.registry.erase c) c _) =
      chanKeys s.chans
    rw [chanKeys_sendAll, chanKeys_updateChan]
  · rw [if_neg hc]

theorem chanKeys_hubStep_broadcast (s : HubState) (msg : String) (full : List Nat) :
    chanKeys (hubStep s (.broadcast msg full)).chans = chanKeys s.chans := by
  rw [hubStep_broadcast_def]
  exact bcast_chanKeys _ _ _ _

/-- Invariant preservation: a register event for a client the Hub has never
seen. -/
theorem inv_register (s : HubState) (c : Nat) (hInv : Inv s)
    (hfresh : c ∉ chanKeys s.chans) : Inv (hubStep s (.register c)) := by
  obtain ⟨hnd, hknd, hsub, hopen, hle, hcnt⟩ := hInv
  have hcreg : c ∉ s.registry := fun hc => hfresh (hsub c hc)
  rw [hubStep_register_def]
  simp only [if_neg hfresh, if_neg hcreg]
  set jm := jsonMarshalMessage ⟨"", "", joinedContent⟩ with hjm
  set chans1 := s.chans ++ [(c, ChanState.start)] with hchans1
  set reg1 := s.registry ++ [c] with hreg1
  have hkeys1 : chanKeys chans1 = chanKeys s.chans ++ [c] := by
    rw [hchans1, chanKeys_append]; rfl
  have hkeysAll : chanKeys (sendAll chans1 reg1 c jm) = chanKeys s.chans ++ [c] := by
    rw [chanKeys_sendAll, hkeys1]
  have hmemreg : ∀ d, d ∈ reg1 ↔ (d ∈ s.registry ∨ d = c) := by
    intro d; rw [hreg1]; simp
  have hmemkeys : ∀ d, d ∈ chanKeys s.chans ++ [c] ↔ (d ∈ chanKeys s.chans ∨ d = c) := by
    intro d; simp
  -- channel state of a previously known client is unchanged except its inbox
  have hold : ∀ d ∈ chanKeys s.chans,
      (getChanIn (sendAll chans1 reg1 c jm) d).closed = (getChan s d).closed ∧
      (getChanIn (sendAll chans1 reg1 c jm) d).closeCount = (getChan s d).closeCount := by
    intro d hd
    have hdc : d ≠ c := fun he => hfresh (he ▸ hd)
    rcases sendAll_closed_closeCount reg1 chans1 c jm d with ⟨h1, h2⟩
    rw [h1, h2, hchans1, getChanIn_append_single_ne _ _ _ _ hdc]
    exact ⟨rfl, rfl⟩
  have hnew : getChanIn (sendAll chans1 reg1 c jm) c = ChanState.start := by
    rw [getChanIn_sendAll_ignore, hchans1, getChanIn_append_fresh _ _ _ hfresh]
  refine ⟨?_, ?_, ?_, ?_, ?_, ?_⟩
  · exact hnd.append (List.nodup_singleton c)
      (fun a ha hb => hcreg ((List.mem_singleton.mp hb) ▸ ha))
  · show (chanKeys (sendAll chans1 reg1 c jm)).Nodup
    rw [hkeysAll]
    exact hknd.append (List.nodup_singleton c)
      (fun a ha hb => hfresh ((List.mem_singleton.mp hb) ▸ ha))
  · intro d hd
    show d ∈ chanKeys (sendAll chans1 reg1 c jm)
    rw [hkeysAll, hmemkeys]
    rcases (hmemreg d).mp hd with h | h
    · exact Or.inl (hsub d h)
    · exact Or.inr h
  · intro d hd
    rw [show chanKeys (sendAll chans1 reg1 c jm) = chanKeys s.chans ++ [c] from hkeysAll,
      hmemkeys] at hd
    show ((getChanIn (sendAll chans1 reg1 c jm) d).closed = false ↔ d ∈ reg1)
    rcases hd with hd | hdc
    · have hdc : d ≠ c := fun he => hfresh (he ▸ hd)
      rw [(hold d hd).1, hmemreg d]
      constructor
      · intro h; exact Or.inl ((hopen d hd).mp h)
      · rintro (h | h)
        · exact (hopen d hd).mpr h
        · exact absurd h hdc
    · rw [hdc, hnew]
      constructor
      · intro h; exact (hmemreg c).mpr (Or.inr rfl)
      · intro h; rfl
  · intro d hd
    rw [show chanKeys (sendAll chans1 reg1 c jm) = chanKeys s.chans ++ [c] from hkeysAll,
      hmemkeys] at hd
    show (getChanIn (sendAll chans1 reg1 c jm) d).closeCount ≤ 1
    rcases hd with hd | hdc
    · rw [(hold d hd).2]
      exact hle d hd
    · rw [hdc, hnew]
      exact Nat.zero_le 1
  · intro d hd
    rw [show chanKeys (sendAll chans1 reg1 c jm) = chanKeys s.chans ++ [c] from hkeysAll,
      hmemkeys] at hd
    show ((getChanIn (sendAll chans1 reg1 c jm) d).closed = true ↔
      (getChanIn (sendAll chans1 reg1 c jm) d).closeCount = 1)
    rcases hd with hd | hdc
    · rw [(hold d hd).1, (hold d hd).2]
      exact hcnt d hd
    · rw [hdc, hnew]
      simp [ChanState.start]

/-- Invariant preservation: an unregister event. -/
theorem inv_unregister (s : HubState) (c : Nat) (hInv : Inv s) :
    Inv (hubStep s (.unregister c)) := by
  by_cases hcr : c ∈ s.registry
  case neg =>
    rw [hubStep_unregister_def, if_neg hcr]
    exact hInv
  case pos =>
  obtain ⟨hclosed0, hcount0⟩ := inv_registered_open s hInv c hcr
  obtain ⟨hnd, hknd, hsub, hopen, hle, hcnt⟩ := hInv
  have hck : c ∈ chanKeys s.chans := hsub c hcr
  rw [hubStep_unregister_def, if_pos hcr]
  set jm := jsonMarshalMessage ⟨"", "", leftContent⟩ with hjm
  set chans1 := updateChan s.chans c closeOp with hchans1
  set reg1 := s.registry.erase c with hreg1
  have hkeysAll : chanKeys (sendAll chans1 reg1 c jm) = chanKeys s.chans := by
    rw [chanKeys_sendAll, hchans1, chanKeys_updateChan]
  -- channel state after the step: closed/closeCount view
  have hget : ∀ d,
      (getChanIn (sendAll chans1 reg1 c jm) d).closed = (getChanIn chans1 d).closed ∧
      (getChanIn (sendAll chans1 reg1 c jm) d).closeCount =
        (getChanIn chans1 d).closeCount :=
    fun d => sendAll_closed_closeCount reg1 chans1 c jm d
  have hself : getChanIn chans1 c = closeOp (getChan s c) := by
    rw [hchans1]; exact getChanIn_updateChan_self _ _ _ hck
  have hother : ∀ d, d ≠ c → getChanIn chans1 d = getChan s d := by
    intro d hdc
    rw [hchans1]; exact getChanIn_updateChan_ne _ _ _ _ hdc
  refine ⟨?_, ?_, ?_, ?_, ?_, ?_⟩
  · exact hnd.erase c
  · show (chanKeys (sendAll chans1 reg1 c jm)).Nodup
    rw [hkeysAll]; exact hknd
  · intro d hd
    show d ∈ chanKeys (sendAll chans1 reg1 c jm)
    rw [hkeysAll]
    exact hsub d (List.mem_of_mem_erase hd)
  · intro d hd
    rw [show chanKeys (sendAll chans1 reg1 c jm) = chanKeys s.chans from hkeysAll] at hd
    show ((getChanIn (sendAll chans1 reg1 c jm) d).closed = false ↔ d ∈ reg1)
    rw [(hget d).1]
    by_cases hdc : d = c
    · rw [hdc, hself]
      constructor
      · intro h; cases h
      · intro h
        rw [hreg1] at h
        exact absurd rfl (hnd.mem_erase_iff.mp h).1
    · rw [hother d hdc, hreg1, List.mem_erase_of_ne hdc]
      exact hopen d hd
  · intro d hd
    rw [show chanKeys (sendAll chans1 reg1 c jm) = chanKeys s.chans from hkeysAll] at hd
    show (getChanIn (sendAll chans1 reg1 c jm) d).closeCount ≤ 1
    rw [(hget d).2]
    by_cases hdc : d = c
    · rw [hdc, hself]
      simp [closeOp, hcount0]
    · rw [hother d hdc]
      exact hle d hd
  · intro d hd
    rw [show chanKeys (sendAll chans1 reg1 c jm) = chanKeys s.chans from hkeysAll] at hd
    show ((getChanIn (sendAll chans1 reg1 c jm) d).closed = true ↔
      (getChanIn (sendAll chans1 reg1 c jm) d).closeCount = 1)
    rw [(hget d).1, (hget d).2]
    by_cases hdc : d = c
    · rw [hdc, hself]
      simp [closeOp, hcount0]
    · rw [hother d hdc]
      exact hcnt d hd

/-- Invariant preservation: a broadcast event (any oracle of full queues). -/
theorem inv_broadcast (s : HubState) (msg : String) (full : List Nat) (hInv : Inv s) :
    Inv (hubStep s (.broadcast msg full)) := by
  obtain ⟨hnd, hknd, hsub, hopen, hle, hcnt⟩ := hInv
  rw [hubStep_broadcast_def]
  have hkeysAll : chanKeys (s.registry.foldl (dropOrDeliver msg full) s).chans =
      chanKeys s.chans := bcast_chanKeys _ _ _ _
  refine ⟨?_, ?_, ?_, ?_, ?_, ?_⟩
  · exact bcast_registry_nodup _ _ _ _ hnd
  · rw [hkeysAll]; exact hknd
  · intro d hd
    rw [hkeysAll]
    exact hsub d (bcast_registry_sub _ _ _ _ _ hd)
  · intro d hd
    rw [hkeysAll] at hd
    by_cases hdr : d ∈ s.registry
    · have hopen0 : (getChan s d).closed = false := (hopen d hd).mpr hdr
      by_cases hdf : d ∈ full
      · rcases bcast_mem_full msg full s.registry s d hnd hnd hdr hdf (hsub d hdr)
          with ⟨h1, h2⟩
        rw [h1]
        simp only [closeOp_closed]
        constructor
        · intro h; cases h
        · intro h; exact absurd h h2
      · rcases bcast_mem_not_full msg full s.registry s d hnd hdr hdf (hsub d hdr)
          with ⟨h1, h2⟩
        rw [h1, h2]
        simp only [enqOp_closed]
        constructor
        · intro _; exact hdr
        · intro _; exact hopen0
    · rcases bcast_not_mem msg full s.registry s d hdr with ⟨h1, h2⟩
      rw [h1, h2]
      exact hopen d hd
  · intro d hd
    rw [hkeysAll] at hd
    by_cases hdr : d ∈ s.registry
    · by_cases hdf : d ∈ full
      · rcases bcast_mem_full msg full s.registry s d hnd hnd hdr hdf (hsub d hdr)
          with ⟨h1, -⟩
        rw [h1]
        simp only [closeOp_closeCount]
        have hc0 : (getChan s d).closeCount = 0 :=
          (inv_registered_open s ⟨hnd, hknd, hsub, hopen, hle, hcnt⟩ d hdr).2
        omega
      · rcases bcast_mem_not_full msg full s.registry s d hnd hdr hdf (hsub d hdr)
          with ⟨h1, -⟩
        rw [h1]
        simp only [enqOp_closeCount]
        exact hle d hd
    · rcases bcast_not_mem msg full s.registry s d hdr with ⟨h1, -⟩
      rw [h1]
      exact hle d hd
  · intro d hd
    rw [hkeysAll] at hd
    by_cases hdr : d ∈ s.registry
    · have hc0 : (getChan s d).closeCount = 0 :=
        (inv_registered_open s ⟨hnd, hknd, hsub, hopen, hle, hcnt⟩ d hdr).2
      by_cases hdf : d ∈ full
      · rcases bcast_mem_full msg full s.registry s d hnd hnd hdr hdf (hsub d hdr)
          with ⟨h1, -⟩
        rw [h1]
        simp [closeOp, hc0]
      · rcases bcast_mem_not_full msg full s.registry s d hnd hdr hdf (hsub d hdr)
          with ⟨h1, -⟩
        rw [h1]
        simp only [enqOp_closed, enqOp_closeCount]
        exact hcnt d hd
    · rcases bcast_not_mem msg full s.registry s d hdr with ⟨h1, -⟩
      rw [h1]
      exact hcnt d hd

theorem freshTrace_congr (t : List HEvent) (k1 k2 : List Nat)
    (h : ∀ x, x ∈ k1 ↔ x ∈ k2) : freshTrace k1 t = freshTrace k2 t := by
  induction t generalizing k1 k2 with
  | nil => rfl
  | cons e rest ih =>
      cases e with
      | register c =>
          show ((!(decide (c ∈ k1))) && freshTrace (c :: k1) rest) =
            ((!(decide (c ∈ k2))) && freshTrace (c :: k2) rest)
          rw [decide_eq_decide.mpr (h c),
            ih (c :: k1) (c :: k2) (fun x => by simp [h x])]
      | unregister c => exact ih k1 k2 h
      | broadcast msg full => exact ih k1 k2 h

/-- The invariant holds after any trace whose register events are fresh. -/
theorem inv_hubRun (t : List HEvent) : ∀ s : HubState, Inv s →
    freshTrace (chanKeys s.chans) t = true → Inv (hubRun s t) := by
  induction t with
  | nil => exact fun s h _ => h
  | cons e rest ih =>
      intro s hInv hft
      rw [hubRun_cons]
      cases e with
      | register c =>
          have hft' : ((!(decide (c ∈ chanKeys s.chans))) &&
              freshTrace (c :: chanKeys s.chans) rest) = true := hft
          rw [Bool.and_eq_true] at hft'
          have hfc : c ∉ chanKeys s.chans := by
            have := hft'.1
            simpa using this
          refine ih _ (inv_register s c hInv hfc) ?_
          rw [chanKeys_hubStep_register_fresh s c hfc,
            freshTrace_congr rest _ (c :: chanKeys s.chans) (fun x => by simp [or_comm])]
          exact hft'.2
      | unregister c =>
          refine ih _ (inv_unregister s c hInv) ?_
          rw [chanKeys_hubStep_unregister]
          exact hft
      | broadcast msg full =>
          refine ih _ (inv_broadcast s msg full hInv) ?_
          rw [chanKeys_hubStep_broadcast]
          exact hft

/-! ## Counting admissions and removals -/

theorem nodup_hubStep (s : HubState) (e : HEvent) (h : s.registry.Nodup) :
    (hubStep s e).registry.Nodup := by
  cases e with
  | register c =>
      rw [hubStep_register_def]
      by_cases hc : c ∈ s.registry
      · rw [if_pos hc]; exact h
      · rw [if_neg hc]
        exact h.append (List.nodup_singleton c)
          (fun a ha hb => hc ((List.mem_singleton.mp hb) ▸ ha))
  | unregister c =>
      rw [hubStep_unregister_def]
      by_cases hc : c ∈ s.registry
      · rw [if_pos hc]; exact h.erase c
      · rw [if_neg hc]; exact h
  | broadcast msg full =>
      rw [hubStep_broadcast_def]
      exact bcast_registry_nodup _ _ _ _ h

theorem length_hubStep (s : HubState) (e : HEvent) (h : s.registry.Nodup) :
    (hubStep s e).registry.length + removalStep s e =
      s.registry.length + admitStep s e := by
  cases e with
  | register c =>
      rw [hubStep_register_def]
      by_cases hc : c ∈ s.registry
      · simp [admitStep, removalStep, hc]
      · simp [admitStep, removalStep, hc]
  | unregister c =>
      rw [hubStep_unregister_def]
      by_cases hc : c ∈ s.registry
      · rw [if_pos hc]
        simp only [admitStep, removalStep, if_pos hc]
        rw [Nat.add_zero]
        exact List.length_erase_add_one hc
      · rw [if_neg hc]
        simp [admitStep, removalStep, hc]
  | broadcast msg full =>
      rw [hubStep_broadcast_def]
      simp only [admitStep, removalStep, Nat.add_zero]
      exact bcast_length msg full s.registry s h h (fun x hx => hx)

theorem length_hubRun (t : List HEvent) : ∀ s : HubState, s.registry.Nodup →
    (hubRun s t).registry.length + removals s t =
      s.registry.length + admits s t := by
  induction t with
  | nil => intro s _; rfl
  | cons e rest ih =>
      intro s h
      rw [hubRun_cons]
      have h1 := length_hubStep s e h
      have h2 := ih (hubStep s e) (nodup_hubStep s e h)
      show (hubRun (hubStep s e) rest).registry.length +
        (removalStep s e + removals (hubStep s e) rest) =
        s.registry.length + (admitStep s e + admits (hubStep s e) rest)
      omega

/-! ## Shared facts about the unregister handler -/

/-- Effect of an unregister event on a registered client: its channel is
closed, it leaves the registry, and a left announcement is delivered to every
remaining registered client. -/
theorem unregister_mem_facts (s : HubState) (hInv : Inv s) (c : Nat)
    (hc : c ∈ s.registry) :
    (getChan (hubStep s (.unregister c)) c).closed = true ∧
    c ∉ (hubStep s (.unregister c)).registry ∧
    ∀ d ∈ (hubStep s (.unregister c)).registry,
      (getChan (hubStep s (.unregister c)) d).inbox =
        (getChan s d).inbox ++ [jsonMarshalMessage ⟨"", "", leftContent⟩] := by
  obtain ⟨hnd, hknd, hsub, -, -, -⟩ := hInv
  rw [hubStep_unregister_def, if_pos hc]
  set jm := jsonMarshalMessage ⟨"", "", leftContent⟩ with hjm
  set chans1 := updateChan s.chans c closeOp with hchans1
  set reg1 := s.registry.erase c with hreg1
  refine ⟨?_, ?_, ?_⟩
  · show (getChanIn (sendAll chans1 reg1 c jm) c).closed = true
    rw [(sendAll_closed_closeCount reg1 chans1 c jm c).1, hchans1,
      getChanIn_updateChan_self _ _ _ (hsub c hc), closeOp_closed]
  · show c ∉ reg1
    rw [hreg1]
    intro h
    exact (hnd.mem_erase_iff.mp h).1 rfl
  · intro d hd
    have hd' : d ≠ c ∧ d ∈ s.registry := hnd.mem_erase_iff.mp (hreg1 ▸ hd)
    show (getChanIn (sendAll chans1 reg1 c jm) d).inbox =
      (getChan s d).inbox ++ [jm]
    rw [getChanIn_sendAll_mem reg1 chans1 c jm d (hreg1 ▸ hnd.erase c) hd hd'.1
        (by rw [hchans1, chanKeys_updateChan]; exact hsub d hd'.2),
      hchans1, getChanIn_updateChan_ne _ _ _ _ hd'.1, enqOp_inbox]
    rfl

/-! ## Claim theorems -/

/-- C1: when the Hub loop processes a broadcast event it attempts a
non-blocking enqueue of the message onto the outbound queue of every
registered Connection (the sender included, nobody excluded); every
Connection whose enqueue fails (its queue is full) has its queue closed and
is removed from the registry in the same step with nothing delivered to it,
while no other Connection's queue or membership changes except by receiving
exactly this message — in particular no left announcement is produced for
the dropped Connections, and the message still reaches every other
registered Connection. -/
theorem C1_broadcast_fanout_drop (s : HubState) (hInv : Inv s) (msg : String)
    (full : List Nat) :
    (∀ c ∈ s.registry, c ∉ full →
        (getChan (hubStep s (.broadcast msg full)) c).inbox =
          (getChan s c).inbox ++ [msg] ∧
        c ∈ (hubStep s (.broadcast msg full)).registry) ∧
    (∀ c ∈ s.registry, c ∈ full →
        (getChan (hubStep s (.broadcast msg full)) c).closed = true ∧
        c ∉ (hubStep s (.broadcast msg full)).registry ∧
        (getChan (hubStep s (.broadcast msg full)) c).inbox = (getChan s c).inbox) ∧
    (∀ c, c ∉ s.registry →
        getChan (hubStep s (.broadcast msg full)) c = getChan s c ∧
        (c ∈ (hubStep s (.broadcast msg full)).registry ↔ c ∈ s.registry)) := by
  obtain ⟨hnd, -, hsub, -, -, -⟩ := hInv
  rw [hubStep_broadcast_def]
  refine ⟨?_, ?_, ?_⟩
  · intro c hc hf
    rcases bcast_mem_not_full msg full s.registry s c hnd hc hf (hsub c hc) with ⟨h1, h2⟩
    exact ⟨by rw [h1, enqOp_inbox], h2.mpr hc⟩
  · intro c hc hf
    rcases bcast_mem_full msg full s.registry s c hnd hnd hc hf (hsub c hc) with ⟨h1, h2⟩
    exact ⟨by rw [h1, closeOp_closed], h2, by rw [h1, closeOp_inbox]⟩
  · intro c hc
    exact bcast_not_mem msg full s.registry s c hc

theorem C1_broadcast_fanout_drop_witness :
    Inv (hubRun hubStart [.register 1, .register 2]) ∧
    ((getChan (hubStep (hubRun hubStart [.register 1, .register 2])
          (.broadcast "m" [2])) 1).inbox =
        (getChan (hubRun hubStart [.register 1, .register 2]) 1).inbox ++ ["m"] ∧
      1 ∈ (hubStep (hubRun hubStart [.register 1, .register 2])
          (.broadcast "m" [2])).registry) ∧
    ((getChan (hubStep (hubRun hubStart [.register 1, .register 2])
          (.broadcast "m" [2])) 2).closed = true ∧
      2 ∉ (hubStep (hubRun hubStart [.register 1, .register 2])
          (.broadcast "m" [2])).registry ∧
      (getChan (hubStep (hubRun hubStart [.register 1, .register 2])
          (.broadcast "m" [2])) 2).inbox =
        (getChan (hubRun hubStart [.register 1, .register 2]) 2).inbox) :=
  ⟨by decide,
   (C1_broadcast_fanout_drop _ (by decide) "m" [2]).1 1 (by decide) (by decide),
   (C1_broadcast_fanout_drop _ (by decide) "m" [2]).2.1 2 (by decide) (by decide)⟩

/-- C2: when the Hub loop processes a register event for Connection `c`,
`c` is in the registry afterwards; a joined system envelope is delivered to
the outbound queue of every other Connection registered at that moment, and
`c` itself receives no joined announcement. -/
theorem C2_register_joined (s : HubState) (hInv : Inv s) (c : Nat) :
    c ∈ (hubStep s (.register c)).registry ∧
    (∀ d ∈ s.registry, d ≠ c →
        (getChan (hubStep s (.register c)) d).inbox =
          (getChan s d).inbox ++ [jsonMarshalMessage ⟨"", "", joinedContent⟩]) ∧
    (getChan (hubStep s (.register c)) c).inbox = (getChan s c).inbox := by
  obtain ⟨hnd, hknd, hsub, -, -, -⟩ := hInv
  rw [hubStep_register_def]
  set jm := jsonMarshalMessage ⟨"", "", joinedContent⟩ with hjm
  set reg1 := if c ∈ s.registry then s.registry else s.registry ++ [c] with hreg1
  set chans1 := if c ∈ chanKeys s.chans then s.chans
    else s.chans ++ [(c, ChanState.start)] with hchans1
  have hreg1nd : reg1.Nodup := by
    rw [hreg1]
    by_cases hcr : c ∈ s.registry
    · rw [if_pos hcr]; exact hnd
    · rw [if_neg hcr]
      exact hnd.append (List.nodup_singleton c)
        (fun a ha hb => hcr ((List.mem_singleton.mp hb) ▸ ha))
  have hcmem : c ∈ reg1 := by
    rw [hreg1]
    by_cases hcr : c ∈ s.registry
    · rw [if_pos hcr]; exact hcr
    · rw [if_neg hcr]; exact List.mem_append_right _ (List.mem_singleton_self c)
  have hgch : ∀ d, getChanIn chans1 d = getChanIn s.chans d := by
    intro d
    rw [hchans1]
    by_cases hck : c ∈ chanKeys s.chans
    · rw [if_pos hck]
    · rw [if_neg hck]
      by_cases hdc : d = c
      · rw [hdc, getChanIn_append_fresh _ _ _ hck, getChanIn_not_mem _ _ hck]
      · exact getChanIn_append_single_ne _ _ _ _ hdc
  have hkeys1 : ∀ d, d ∈ chanKeys s.chans → d ∈ chanKeys chans1 := by
    intro d hd
    rw [hchans1]
    by_cases hck : c ∈ chanKeys s.chans
    · rw [if_pos hck]; exact hd
    · rw [if_neg hck, chanKeys_append]; exact List.mem_append_left _ hd
  refine ⟨hcmem, ?_, ?_⟩
  · intro d hd hdc
    have hdreg1 : d ∈ reg1 := by
      rw [hreg1]
      by_cases hcr : c ∈ s.registry
      · rw [if_pos hcr]; exact hd
      · rw [if_neg hcr]; exact List.mem_append_left _ hd
    show (getChanIn (sendAll chans1 reg1 c jm) d).inbox = (getChan s d).inbox ++ [jm]
    rw [getChanIn_sendAll_mem reg1 chans1 c jm d hreg1nd hdreg1 hdc
        (hkeys1 d (hsub d hd)), hgch d, enqOp_inbox]
    rfl
  · show (getChanIn (sendAll chans1 reg1 c jm) c).inbox = (getChan s c).inbox
    rw [getChanIn_sendAll_ignore, hgch c]
    rfl

theorem C2_register_joined_witness :
    Inv (hubRun hubStart [.register 1, .register 2]) ∧
    5 ∈ (hubStep (hubRun hubStart [.register 1, .register 2]) (.register 5)).registry ∧
    (getChan (hubStep (hubRun hubStart [.register 1, .register 2]) (.register 5)) 1).inbox =
      (getChan (hubRun hubStart [.register 1, .register 2]) 1).inbox ++
        [jsonMarshalMessage ⟨"", "", joinedContent⟩] ∧
    (getChan (hubStep (hubRun hubStart [.register 1, .register 2]) (.register 5)) 5).inbox =
      (getChan (hubRun hubStart [.register 1, .register 2]) 5).inbox :=
  ⟨by decide,
   (C2_register_joined _ (by decide) 5).1,
   (C2_register_joined _ (by decide) 5).2.1 1 (by decide) (by decide),
   (C2_register_joined _ (by decide) 5).2.2⟩

/-- C3: when the Hub loop processes an unregister event for a registered
Connection, its outbound queue is closed, it is removed from the registry,
and a left system envelope is delivered to every remaining registered
Connection; for a Connection that is not registered the step is a no-op —
the whole Hub state is unchanged, so no queue is closed or modified. -/
theorem C3_unregister (s : HubState) (hInv : Inv s) (c : Nat) :
    (c ∈ s.registry →
        (getChan (hubStep s (.unregister c)) c).closed = true ∧
        c ∉ (hubStep s (.unregister c)).registry ∧
        ∀ d ∈ (hubStep s (.unregister c)).registry,
          (getChan (hubStep s (.unregister c)) d).inbox =
            (getChan s d).inbox ++ [jsonMarshalMessage ⟨"", "", leftContent⟩]) ∧
    (c ∉ s.registry → hubStep s (.unregister c) = s) := by
  constructor
  · intro hc
    exact unregister_mem_facts s hInv c hc
  · intro hc
    rw [hubStep_unregister_def, if_neg hc]

theorem C3_unregister_witness :
    Inv (hubRun hubStart [.register 1, .register 2]) ∧
    ((getChan (hubStep (hubRun hubStart [.register 1, .register 2]) (.unregister 2)) 2).closed
        = true ∧
      2 ∉ (hubStep (hubRun hubStart [.register 1, .register 2]) (.unregister 2)).registry) ∧
    hubStep (hubRun hubStart [.register 1, .register 2]) (.unregister 7) =
      hubRun hubStart [.register 1, .register 2] :=
  ⟨by decide,
   ⟨((C3_unregister _ (by decide) 2).1 (by decide)).1,
    ((C3_unregister _ (by decide) 2).1 (by decide)).2.1⟩,
   (C3_unregister _ (by decide) 7).2 (by decide)⟩

/-- C4: in every state reached from the initial Hub state by a trace of
register, unregister and broadcast events (with register events carrying
fresh clients, as `wsPage` guarantees), a Connection is in the registry
exactly when it is known to the Hub and its outbound queue has not been
closed — i.e. it has been registered and not yet removed — and the registry
size equals the number of admitted Connections minus the number removed. -/
theorem C4_registry_membership_and_size (t : List HEvent)
    (h : freshTrace [] t = true) :
    (∀ c, c ∈ (hubRun hubStart t).registry ↔
        (c ∈ chanKeys (hubRun hubStart t).chans ∧
         (getChan (hubRun hubStart t) c).closed = false)) ∧
    (hubRun hubStart t).registry.length + removals hubStart t =
      admits hubStart t := by
  have hInv := inv_hubRun t hubStart inv_hubStart h
  obtain ⟨-, -, hsub, hopen, -, -⟩ := hInv
  constructor
  · intro c
    by_cases hk : c ∈ chanKeys (hubRun hubStart t).chans
    · constructor
      · intro hc
        exact ⟨hk, (hopen c hk).mpr hc⟩
      · intro hcl
        exact (hopen c hk).mp hcl.2
    · constructor
      · intro hc
        exact absurd (hsub c hc) hk
      · intro hcl
        exact absurd hcl.1 hk
  · have hlen := length_hubRun t hubStart List.nodup_nil
    simpa [hubStart] using hlen

theorem C4_registry_membership_and_size_witness :
    freshTrace []
        [.register 1, .register 2, .register 3, .broadcast "m" [2], .unregister 1]
        = true ∧
    (3 ∈ (hubRun hubStart
        [.register 1, .register 2, .register 3, .broadcast "m" [2], .unregister 1]).registry ↔
      (3 ∈ chanKeys (hubRun hubStart
        [.register 1, .register 2, .register 3, .broadcast "m" [2], .unregister 1]).chans ∧
       (getChan (hubRun hubStart
        [.register 1, .register 2, .register 3, .broadcast "m" [2], .unregister 1]) 3).closed
          = false)) ∧
    (hubRun hubStart
        [.register 1, .register 2, .register 3, .broadcast "m" [2], .unregister 1]).registry.length +
      removals hubStart
        [.register 1, .register 2, .register 3, .broadcast "m" [2], .unregister 1] =
      admits hubStart
        [.register 1, .register 2, .register 3, .broadcast "m" [2], .unregister 1] :=
  ⟨by decide,
   (C4_registry_membership_and_size
     [.register 1, .register 2, .register 3, .broadcast "m" [2], .unregister 1]
     (by decide)).1 3,
   (C4_registry_membership_and_size
     [.register 1, .register 2, .register 3, .broadcast "m" [2], .unregister 1]
     (by decide)).2⟩

/-- C5: each read-pump iteration that succeeds with payload `p` sends on the
broadcast channel the serialization of an envelope with sender the
Connection's id, content `p`, and an empty recipient which is omitted from
the wire form (no recipient field is emitted); an iteration whose read
fails sends the Connection on the unregister channel, closes the socket and
terminates the loop (after which the deferred cleanup repeats the same
unregister-and-close pair). -/
theorem C5_read_pump (c : Client) (p : String) (rest : List ReadResult) :
    (clientRead c (.ok p :: rest) =
        .broadcast (jsonMarshalMessage ⟨c.id, "", p⟩) :: clientRead c rest ∧
      ((messageFields ⟨c.id, "", p⟩).map Prod.fst).contains "recipient" = false) ∧
    clientRead c (.fail :: rest) =
      [.unregisterSelf, .closeSocket, .unregisterSelf, .closeSocket] := by
  refine ⟨⟨rfl, ?_⟩, rfl⟩
  by_cases hs : c.id = "" <;> by_cases hp : p = "" <;>
    simp [messageFields, hs, hp]

/-- C6: along any trace of Hub-loop events in which each client is
registered at most once (fresh registers — matching `wsPage`, which sends
each fresh Client on the register channel exactly once while the read pump
may send duplicate unregisters from its failure branch and its deferred
exit path), no Connection's outbound queue is ever closed more than once. -/
theorem C6_close_at_most_once (t : List HEvent) (h : freshTrace [] t = true)
    (c : Nat) : (getChan (hubRun hubStart t) c).closeCount ≤ 1 := by
  have hInv := inv_hubRun t hubStart inv_hubStart h
  obtain ⟨-, -, -, -, hle, -⟩ := hInv
  by_cases hk : c ∈ chanKeys (hubRun hubStart t).chans
  · exact hle c hk
  · rw [show getChan (hubRun hubStart t) c = ChanState.start from
      getChanIn_not_mem _ _ hk]
    exact Nat.zero_le 1

theorem C6_close_at_most_once_witness :
    freshTrace []
        [.register 1, .register 2, .broadcast "x" [1], .unregister 1, .unregister 1]
        = true ∧
    (getChan (hubRun hubStart
        [.register 1, .register 2, .broadcast "x" [1], .unregister 1, .unregister 1])
      1).closeCount ≤ 1 :=
  ⟨by decide,
   C6_close_at_most_once
     [.register 1, .register 2, .broadcast "x" [1], .unregister 1, .unregister 1]
     (by decide) 1⟩

/-- C7: the serialization sites bind the `json.Marshal` error to `_` and
never examine it: with a hypothetical failing marshal result the very same
bytes are still fanned out — the error is not logged and the broadcast is
not skipped.  (For this fixed three-string struct Go's `json.Marshal` in
fact never fails, so the branch demanded by the spec is unreachable, but
the code would send the failure's empty bytes rather than skip.) -/
theorem C7_marshal_error_discarded :
    (∀ (bytes e : String) (chans : List (Nat × ChanState)) (reg : List Nat)
        (ig : Nat),
      announce (bytes, some e) chans reg ig = announce (bytes, none) chans reg ig) ∧
    announce ("", some "json error") [(1, ChanState.start), (2, ChanState.start)]
        [1, 2] 1 =
      [(1, ChanState.start), (2, ⟨[""], false, 0⟩)] := by
  refine ⟨fun _ _ _ _ _ => rfl, ?_⟩
  decide

/-- C8 counterexample: the left announcement does not identify the departed
Connection.  In a Hub with three clients, the complete queue contents
observed by client 1 after client 3 departs are identical to those after
client 2 departs, and the delivered envelope is the fixed anonymous message
with empty sender. -/
theorem C8_left_not_attributable :
    (getChan (hubStep (hubRun hubStart [.register 1, .register 2, .register 3])
        (.unregister 3)) 1).inbox =
      (getChan (hubStep (hubRun hubStart [.register 1, .register 2, .register 3])
        (.unregister 2)) 1).inbox ∧
    (getChan (hubStep (hubRun hubStart [.register 1, .register 2, .register 3])
        (.unregister 3)) 1).inbox =
      (getChan (hubRun hubStart [.register 1, .register 2, .register 3]) 1).inbox ++
        [jsonMarshalMessage ⟨"", "", leftContent⟩] := by
  constructor <;> decide

/-- C8 amended: when a registered Connection is unregistered, every
remaining registered Connection receives exactly one left envelope, but the
envelope is the fixed anonymous message (content only, no sender field), so
it does not identify which Connection departed. -/
theorem C8_left_exactly_once_anonymous (s : HubState) (hInv : Inv s) (c : Nat)
    (hc : c ∈ s.registry) :
    (∀ d ∈ (hubStep s (.unregister c)).registry,
        (getChan (hubStep s (.unregister c)) d).inbox =
          (getChan s d).inbox ++ [jsonMarshalMessage ⟨"", "", leftContent⟩]) ∧
    messageFields ⟨"", "", leftContent⟩ = [("content", leftContent)] :=
  ⟨(unregister_mem_facts s hInv c hc).2.2, by decide⟩

theorem C8_left_exactly_once_anonymous_witness :
    Inv (hubRun hubStart [.register 1, .register 2, .register 3]) ∧
    3 ∈ (hubRun hubStart [.register 1, .register 2, .register 3]).registry ∧
    (getChan (hubStep (hubRun hubStart [.register 1, .register 2, .register 3])
        (.unregister 3)) 1).inbox =
      (getChan (hubRun hubStart [.register 1, .register 2, .register 3]) 1).inbox ++
        [jsonMarshalMessage ⟨"", "", leftContent⟩] :=
  ⟨by decide, by decide,
   (C8_left_exactly_once_anonymous _ (by decide) 3 (by decide)).1 1 (by decide)⟩

/-- C9 counterexample: the outbound queue made in `wsPage`
(`send: make(chan []byte)`) is unbuffered — its capacity is 0, not at least
one message. -/
theorem C9_queue_not_message_sized : ¬ 1 ≤ (newClient "a").send.capacity := by
  decide

/-- C9 amended: every Connection is constructed at admission with a bounded
outbound queue, but the queue is unbuffered (capacity 0): it can hold no
pending message, so a non-blocking enqueue succeeds only when the write
pump is concurrently blocked receiving, not merely when it has drained the
previous message. -/
theorem C9_queue_capacity_zero (fresh : String) :
    (newClient fresh).send.capacity = 0 := rfl

/-- C10: if the websocket upgrade fails, `wsPage` answers 404 Not Found and
returns: no Client is constructed, nothing is sent on the register channel
and no pump is started, so the registry is untouched. -/
theorem C10_failed_upgrade_only_404 (fresh : String) :
    wsPage none fresh = [WsAct.respondNotFound] := rfl

end Chat
